import Mathlib

/-!
Verification of the scheduling core of `src/components/TaskManager.tsx`:
the slot-grid generator `generateTimeSlots` and the scheduling algorithm
`generateSchedule` (ranking by a three-key comparator, then first-fit greedy
placement with a monotonically advancing cursor over a 16-slot day grid).

Modelling notes:
* Calendar dates are modelled as `Nat` offsets from the reference date (the
  `new Date()` taken at the start of the run); `currentDate.setDate(getDate()+1)`
  becomes `+ 1` on the offset.
* A task's `deadline` field is used by the source only through
  `new Date(deadline).getTime()`; it is modelled by that integer timestamp.
* The JS object `Schedule = Record<string, Record<string, Task>>` is modelled
  as the function `Nat → String → Option Task` (date offset → slot label →
  occupant); a missing key is `none`.
* `Array.prototype.sort` with a consistent comparator is specified by
  ECMAScript to be a stable sort; it is modelled by `List.insertionSort`,
  which is stable for the same comparator-derived relation.
* The `while (!scheduled)` day-advancement loop of the source has no
  termination bound; it is modelled with an explicit `fuel` parameter, and a
  `none` result stands for a run in which the loop is still spinning after
  `fuel` day advances (for inputs where the source loop never exits, the model
  returns `none` at every fuel).
-/

namespace Motion

/-- The loop of `generateTimeSlots`: for `hour` starting at `startHour`, while
`hour < endHour`, push `` `${hour}:00` `` and `` `${hour}:30` ``.  The loop is
rendered as structural recursion on the trip count
`(endHour - startHour).toNat`, keeping the `hour < endHour` guard of the
source loop. -/
def generateTimeSlotsFrom : Nat → Int → Int → List String
  | 0, _, _ => []
  | fuel + 1, hour, endHour =>
    if hour < endHour then
      (toString hour ++ ":00") :: (toString hour ++ ":30") ::
        generateTimeSlotsFrom fuel (hour + 1) endHour
    else []

/-- The source function `generateTimeSlots(startHour = 9, endHour = 17)`; the
default arguments are supplied explicitly at each call site. -/
def generateTimeSlots (startHour endHour : Int) : List String :=
  generateTimeSlotsFrom (endHour - startHour).toNat startHour endHour

/-- Spec-side description of the slot grid (§4.1 of the spec): the ordered
labels `"<h>:00", "<h>:30"` for the `n` consecutive hours starting at `h`, in
increasing time order. -/
def slotLabelsSpec : Nat → Int → List String
  | 0, _ => []
  | n + 1, h => (toString h ++ ":00") :: (toString h ++ ":30") :: slotLabelsSpec n (h + 1)

theorem generateTimeSlotsFrom_eq_spec :
    ∀ (n : Nat) (s e : Int), (n : Int) ≤ e - s →
      generateTimeSlotsFrom n s e = slotLabelsSpec n s := by
  intro n
  induction n with
  | zero => intro s e _; rfl
  | succ n ih =>
    intro s e h
    have hlt : s < e := by omega
    have hrec : (n : Int) ≤ e - (s + 1) := by push_cast at h ⊢; omega
    simp only [generateTimeSlotsFrom, slotLabelsSpec, if_pos hlt, ih (s + 1) e hrec]

theorem slotLabelsSpec_length : ∀ (n : Nat) (h : Int), (slotLabelsSpec n h).length = 2 * n := by
  intro n
  induction n with
  | zero => intro h; rfl
  | succ n ih => intro h; simp [slotLabelsSpec, ih]; omega

/-- Claim C9: for all integers `startHour < endHour`, the slot grid generator
returns the ordered sequence of labels `"<h>:00", "<h>:30"` for each `h` from
`startHour` up to but not including `endHour`, in increasing time order
(`slotLabelsSpec (endHour - startHour).toNat startHour` is exactly that
sequence), and with the default arguments `9` and `17` it returns exactly 16
slots. -/
theorem grid_is_ordered_hour_labels (s e : Int) (h : s < e) :
    generateTimeSlots s e = slotLabelsSpec (e - s).toNat s ∧
    (generateTimeSlots s e).length = 2 * (e - s).toNat ∧
    (generateTimeSlots 9 17).length = 16 := by
  have hn : ((e - s).toNat : Int) ≤ e - s := by omega
  have heq := generateTimeSlotsFrom_eq_spec (e - s).toNat s e hn
  have hd : generateTimeSlots 9 17 = slotLabelsSpec (17 - 9 : Int).toNat 9 := by
    have : (((17 : Int) - 9).toNat : Int) ≤ (17 : Int) - 9 := by omega
    exact generateTimeSlotsFrom_eq_spec _ 9 17 this
  refine ⟨heq, ?_, ?_⟩
  · show (generateTimeSlotsFrom (e - s).toNat s e).length = 2 * (e - s).toNat
    rw [heq]; exact slotLabelsSpec_length _ _
  · rw [hd, slotLabelsSpec_length]; decide

theorem grid_is_ordered_hour_labels_witness :
    (9 : Int) < 17 ∧
    (generateTimeSlots 9 17 = slotLabelsSpec ((17 : Int) - 9).toNat 9 ∧
      (generateTimeSlots 9 17).length = 2 * ((17 : Int) - 9).toNat ∧
      (generateTimeSlots 9 17).length = 16) :=
  ⟨by decide, grid_is_ordered_hour_labels 9 17 (by decide)⟩

/-- Claim C10: for every pair of integers with `endHour ≤ startHour` the slot
grid generator returns the empty sequence; it is a total function and yields
an empty grid rather than any error for inverted or equal bounds. -/
theorem grid_empty_of_inverted_bounds (s e : Int) (h : e ≤ s) :
    generateTimeSlots s e = [] := by
  unfold generateTimeSlots
  have h0 : (e - s).toNat = 0 := by omega
  rw [h0]
  rfl

theorem grid_empty_of_inverted_bounds_witness :
    (3 : Int) ≤ 5 ∧ generateTimeSlots 5 3 = [] :=
  ⟨by decide, grid_empty_of_inverted_bounds 5 3 (by decide)⟩

/-! ### The task data model -/

inductive Importance
  | ASAP
  | High
  | Average
  | Low
deriving DecidableEq

inductive Priority
  | ASAP
  | HardDeadline
  | SoftDeadline
  | NoDeadline
deriving DecidableEq

/-- The `Task` interface of the source.  `deadline` is the integer timestamp
`new Date(deadline).getTime()`, the only way the source reads the field. -/
structure Task where
  id : Nat
  title : String
  duration : Nat
  importance : Importance
  priority : Priority
  deadline : Int
deriving DecidableEq

/-- The `priorityOrder` record of `generateSchedule`. -/
def priorityOrder : Priority → Nat
  | .ASAP => 0
  | .HardDeadline => 1
  | .SoftDeadline => 2
  | .NoDeadline => 3

/-- The `importanceOrder` record of `generateSchedule`. -/
def importanceOrder : Importance → Nat
  | .ASAP => 0
  | .High => 1
  | .Average => 2
  | .Low => 3

/-- The comparator passed to `sort`: priority ranks first, then importance
ranks, then the difference of the deadline timestamps. -/
def taskCmp (a b : Task) : Int :=
  if priorityOrder a.priority ≠ priorityOrder b.priority then
    (priorityOrder a.priority : Int) - (priorityOrder b.priority : Int)
  else if importanceOrder a.importance ≠ importanceOrder b.importance then
    (importanceOrder a.importance : Int) - (importanceOrder b.importance : Int)
  else
    a.deadline - b.deadline

/-- The "not after" relation induced by the comparator: `taskCmp a b ≤ 0`.
A stable sort by the comparator is a stable sort by this relation. -/
def taskLe (a b : Task) : Prop := taskCmp a b ≤ 0

instance : DecidableRel taskLe := fun a b => inferInstanceAs (Decidable (taskCmp a b ≤ 0))

/-- The `sortedTasks` binding of `generateSchedule`: `[...tasks].sort(cmp)`.
ECMAScript `sort` is stable, and stable-plus-comparator-sorted determines the
output uniquely; it is modelled by the stable `List.insertionSort`. -/
def sortedTasks (tasks : List Task) : List Task := List.insertionSort taskLe tasks

/-- The three-part ranking key `(priorityRank, importanceRank, deadline)`. -/
def keyOf (t : Task) : Nat × Nat × Int :=
  (priorityOrder t.priority, importanceOrder t.importance, t.deadline)

/-- Spec-side lexicographic order over `(priorityRank, importanceRank, deadline)`. -/
def lexLe (a b : Task) : Prop :=
  priorityOrder a.priority < priorityOrder b.priority ∨
    (priorityOrder a.priority = priorityOrder b.priority ∧
      (importanceOrder a.importance < importanceOrder b.importance ∨
        (importanceOrder a.importance = importanceOrder b.importance ∧
          a.deadline ≤ b.deadline)))

theorem taskLe_iff_lexLe (a b : Task) : taskLe a b ↔ lexLe a b := by
  unfold taskLe taskCmp lexLe
  split_ifs with h1 h2 <;> omega

instance : IsTotal Task taskLe :=
  ⟨fun a b => by
    rw [taskLe_iff_lexLe, taskLe_iff_lexLe]
    unfold lexLe
    omega⟩

instance : IsTrans Task taskLe :=
  ⟨fun a b c hab hbc => by
    rw [taskLe_iff_lexLe] at hab hbc ⊢
    unfold lexLe at hab hbc ⊢
    omega⟩

theorem taskLe_of_keyOf_eq {a b : Task} (h : keyOf a = keyOf b) : taskLe a b := by
  unfold keyOf at h
  simp only [Prod.mk.injEq] at h
  rw [taskLe_iff_lexLe]
  unfold lexLe
  omega

/-! ### Stability of the sort -/

theorem filter_orderedInsert_not (p : Task → Bool) (a : Task) (ha : p a = false)
    (l : List Task) : (List.orderedInsert taskLe a l).filter p = l.filter p := by
  induction l with
  | nil => simp [ha]
  | cons b l ih =>
    by_cases hab : taskLe a b
    · simp [List.orderedInsert, if_pos hab, List.filter_cons, ha]
    · simp only [List.orderedInsert, if_neg hab, List.filter_cons]
      rw [ih]

theorem filter_orderedInsert_mem (p : Task → Bool) (a : Task) (ha : p a = true)
    (l : List Task) (hl : ∀ b ∈ l, p b = true → taskLe a b) :
    (List.orderedInsert taskLe a l).filter p = a :: l.filter p := by
  induction l with
  | nil => simp [ha]
  | cons b l ih =>
    by_cases hab : taskLe a b
    · simp [List.orderedInsert, if_pos hab, List.filter_cons, ha]
    · have hb : p b = false := by
        cases hpb : p b
        · rfl
        · exact absurd (hl b (List.mem_cons_self b l) hpb) hab
      have ih' := ih fun c hc hpc => hl c (List.mem_cons_of_mem b hc) hpc
      simp [List.orderedInsert, if_neg hab, List.filter_cons, hb, ih']

theorem filter_sortedTasks (k : Nat × Nat × Int) (l : List Task) :
    (sortedTasks l).filter (fun t => decide (keyOf t = k)) =
      l.filter (fun t => decide (keyOf t = k)) := by
  unfold sortedTasks
  induction l with
  | nil => rfl
  | cons a l ih =>
    show (List.orderedInsert taskLe a (List.insertionSort taskLe l)).filter _ = _
    by_cases ha : keyOf a = k
    · rw [filter_orderedInsert_mem _ a (by simp [ha]) _ ?_]
      · rw [ih, List.filter_cons]
        simp [ha]
      · intro b _ hpb
        simp only [decide_eq_true_eq] at hpb
        exact taskLe_of_keyOf_eq (by rw [ha, hpb])
    · rw [filter_orderedInsert_not _ a (by simp [ha])]
      rw [ih, List.filter_cons]
      simp [ha]

/-- Claim C1: the scheduler's ranking is a stable sort of the input list by the
lexicographic order over `(priorityRank, importanceRank, deadline)`: the output
is a permutation of the input, it is pairwise-ordered by the lexicographic
relation, tasks whose three keys all agree keep their relative input order
(their key-class filter is unchanged), and the rank tables are
`ASAP=0 < HardDeadline=1 < SoftDeadline=2 < NoDeadline=3` and
`ASAP=0 < High=1 < Average=2 < Low=3`. -/
theorem ranking_is_stable_lex_sort (tasks : List Task) :
    (sortedTasks tasks).Perm tasks ∧
    (sortedTasks tasks).Pairwise lexLe ∧
    (∀ k : Nat × Nat × Int,
      (sortedTasks tasks).filter (fun t => decide (keyOf t = k)) =
        tasks.filter (fun t => decide (keyOf t = k))) ∧
    (priorityOrder .ASAP = 0 ∧ priorityOrder .HardDeadline = 1 ∧
      priorityOrder .SoftDeadline = 2 ∧ priorityOrder .NoDeadline = 3) ∧
    (importanceOrder .ASAP = 0 ∧ importanceOrder .High = 1 ∧
      importanceOrder .Average = 2 ∧ importanceOrder .Low = 3) := by
  refine ⟨List.perm_insertionSort taskLe tasks, ?_, fun k => filter_sortedTasks k tasks,
    ⟨rfl, rfl, rfl, rfl⟩, ⟨rfl, rfl, rfl, rfl⟩⟩
  exact (List.sorted_insertionSort taskLe tasks).imp fun h => (taskLe_iff_lexLe _ _).mp h

/-! ### Uniqueness of the sorted order when no two tasks share all three keys -/

theorem sorted_perm_eq_of_key_inj (l₁ : List Task) :
    ∀ l₂, l₁.Pairwise taskLe → l₂.Pairwise taskLe → l₁.Perm l₂ →
      (∀ a ∈ l₁, ∀ b ∈ l₁, keyOf a = keyOf b → a = b) → l₁ = l₂ := by
  induction l₁ with
  | nil =>
    intro l₂ _ _ hp _
    exact hp.symm.eq_nil.symm
  | cons a t₁ ih =>
    intro l₂ hs₁ hs₂ hp hinj
    cases l₂ with
    | nil => exact absurd hp.eq_nil (by simp)
    | cons b t₂ =>
      have hbmem : b ∈ a :: t₁ := hp.symm.subset (List.mem_cons_self b t₂)
      have hab : a = b := by
        have hamem : a ∈ b :: t₂ := hp.subset (List.mem_cons_self a t₁)
        rcases List.mem_cons.mp hbmem with h | hbt
        · exact h.symm
        rcases List.mem_cons.mp hamem with h | hat
        · exact h
        have h1 : taskLe a b := (List.pairwise_cons.mp hs₁).1 b hbt
        have h2 : taskLe b a := (List.pairwise_cons.mp hs₂).1 a hat
        have hkey : keyOf a = keyOf b := by
          rw [taskLe_iff_lexLe] at h1 h2
          unfold lexLe at h1 h2
          unfold keyOf
          simp only [Prod.mk.injEq]
          omega
        exact hinj a (List.mem_cons_self a t₁) b hbmem hkey
      subst hab
      have ht : t₁ = t₂ :=
        ih t₂ (List.pairwise_cons.mp hs₁).2 (List.pairwise_cons.mp hs₂).2 hp.cons_inv
          fun x hx y hy => hinj x (List.mem_cons_of_mem a hx) y (List.mem_cons_of_mem a hy)
      rw [ht]

theorem sortedTasks_eq_of_perm (l l' : List Task) (hp : l.Perm l')
    (hinj : ∀ a ∈ l, ∀ b ∈ l, keyOf a = keyOf b → a = b) :
    sortedTasks l = sortedTasks l' := by
  apply sorted_perm_eq_of_key_inj
  · exact List.sorted_insertionSort taskLe l
  · exact List.sorted_insertionSort taskLe l'
  · exact (List.perm_insertionSort taskLe l).trans (hp.trans (List.perm_insertionSort taskLe l').symm)
  · intro a ha b hb
    exact hinj a ((List.perm_insertionSort taskLe l).subset ha) b
      ((List.perm_insertionSort taskLe l).subset hb)

/-! ### The placement algorithm -/

/-- The `Schedule` object: date offset → slot label → occupying task. -/
abbrev Sched := Nat → String → Option Task

/-- The initial `const schedule: Schedule = {}`. -/
def emptySched : Sched := fun _ _ => none

/-- One store `schedule[dateString][timeSlots[j]] = task`. -/
def writeSlot (sched : Sched) (date : Nat) (key : String) (t : Task) : Sched :=
  fun d s => if d = date ∧ s = key then some t else sched d s

/-- The inner `for (let j = i - availableSlots + 1; j <= i; j++)` loop writing
the task into slots `lo .. hi` of `date`. -/
def assignRun (sched : Sched) (date : Nat) (ts : List String) (lo hi : Nat) (t : Task) : Sched :=
  (List.range' lo (hi + 1 - lo)).foldl (fun acc j => writeSlot acc date (ts.getD j "") t) sched

/-- The scan `for (let i = currentSlotIndex; i < timeSlots.length; i++)` with
its `availableSlots` counter: `rem` is the number of loop iterations left
(`timeSlots.length - i`), `avail` the current run of free slots.  Returns the
grid position `i` at which a run of `n` consecutive free slots ends, if the
scan finds one. -/
def findRunAux (occ : String → Option Task) (ts : List String) (n : Nat) :
    Nat → Nat → Nat → Option Nat
  | 0, _, _ => none
  | rem + 1, i, avail =>
    if occ (ts.getD i "") = none then
      (if avail + 1 = n then some i else findRunAux occ ts n rem (i + 1) (avail + 1))
    else findRunAux occ ts n rem (i + 1) 0

def findRun (occ : String → Option Task) (ts : List String) (n start : Nat) : Option Nat :=
  findRunAux occ ts n (ts.length - start) start 0

/-- The slot count `slotsNeeded = Math.ceil(task.duration / 30)`. -/
def slotsNeeded (t : Task) : Nat := (t.duration + 29) / 30

/-- The `while (!scheduled)` day-advancement loop for one task, with explicit
`fuel` bounding the number of day scans.  On success it returns the updated
schedule, `currentDate` and `currentSlotIndex` (`i + 1` after a placement that
ends at grid position `i`; a failed day resets the index to 0 and moves to the
next date). -/
def placeTask (ts : List String) (t : Task) : Nat → Sched → Nat → Nat → Option (Sched × Nat × Nat)
  | 0, _, _, _ => none
  | fuel + 1, sched, date, idx =>
    match findRun (sched date) ts (slotsNeeded t) idx with
    | some i => some (assignRun sched date ts (i + 1 - slotsNeeded t) i t, date, i + 1)
    | none => placeTask ts t fuel sched (date + 1) 0

/-- The `sortedTasks.forEach(...)` fold threading `(schedule, currentDate,
currentSlotIndex)` through the ranked tasks. -/
def scheduleTasks (ts : List String) (fuel : Nat) :
    List Task → Sched → Nat → Nat → Option Sched
  | [], sched, _, _ => some sched
  | t :: rest, sched, date, idx =>
    match placeTask ts t fuel sched date idx with
    | none => none
    | some (sched', date', idx') => scheduleTasks ts fuel rest sched' date' idx'

/-- The source function `generateSchedule`: rank the tasks, then place them one by one starting at
the reference date (offset 0) and slot index 0, over the default 9–17 grid. -/
def generateSchedule (fuel : Nat) (tasks : List Task) : Option Sched :=
  scheduleTasks (generateTimeSlots 9 17) fuel (sortedTasks tasks) emptySched 0 0

/-- The default grid used by `generateSchedule`. -/
def defaultSlots : List String := generateTimeSlots 9 17

theorem defaultSlots_length : defaultSlots.length = 16 := by decide

theorem defaultSlots_getD_inj :
    ∀ j < 16, ∀ p < 16, defaultSlots.getD j "" = defaultSlots.getD p "" → j = p := by decide

/-! ### Characterisation of the slot-writing loop -/

theorem foldl_write_keep (date : Nat) (ts : List String) (t : Task) (d : Nat) (s : String) :
    ∀ (js : List Nat) (sched : Sched), sched d s = some t →
      (js.foldl (fun acc j => writeSlot acc date (ts.getD j "") t) sched) d s = some t := by
  intro js
  induction js with
  | nil => intro sched h; exact h
  | cons j js ih =>
    intro sched h
    apply ih
    simp only [writeSlot]
    by_cases hc : d = date ∧ s = ts.getD j ""
    · rw [if_pos hc]
    · rw [if_neg hc]; exact h

theorem foldl_write_some (date : Nat) (ts : List String) (t : Task) (s : String) (j : Nat) :
    ∀ (count lo : Nat) (sched : Sched), lo ≤ j → j < lo + count → ts.getD j "" = s →
      ((List.range' lo count).foldl (fun acc j' => writeSlot acc date (ts.getD j' "") t) sched)
        date s = some t := by
  intro count
  induction count with
  | zero => intro lo sched h1 h2 _; omega
  | succ count ih =>
    intro lo sched h1 h2 hk
    rw [List.range'_succ, List.foldl_cons]
    by_cases hj : j = lo
    · apply foldl_write_keep
      show (if date = date ∧ s = ts.getD lo "" then some t else sched date s) = some t
      rw [if_pos ⟨rfl, by rw [← hj, hk]⟩]
    · exact ih (lo + 1) _ (by omega) (by omega) hk

theorem foldl_write_other (date : Nat) (ts : List String) (t : Task) (d : Nat) (s : String) :
    ∀ (count lo : Nat) (sched : Sched),
      (d ≠ date ∨ ∀ j, lo ≤ j → j < lo + count → ts.getD j "" ≠ s) →
      ((List.range' lo count).foldl (fun acc j' => writeSlot acc date (ts.getD j' "") t) sched)
        d s = sched d s := by
  intro count
  induction count with
  | zero => intro lo sched _; rfl
  | succ count ih =>
    intro lo sched h
    rw [List.range'_succ, List.foldl_cons]
    have hstep : writeSlot sched date (ts.getD lo "") t d s = sched d s := by
      simp only [writeSlot]
      rcases h with h | h
      · rw [if_neg fun hc => h hc.1]
      · rw [if_neg fun hc => h lo (le_refl lo) (by omega) hc.2.symm]
    rw [← hstep]
    apply ih
    rcases h with h | h
    · exact Or.inl h
    · exact Or.inr fun j hj1 hj2 => h j (by omega) (by omega)

theorem assignRun_some (sched : Sched) (date : Nat) (ts : List String) (lo hi : Nat) (t : Task)
    (s : String) (j : Nat) (h1 : lo ≤ j) (h2 : j ≤ hi) (hk : ts.getD j "" = s) :
    assignRun sched date ts lo hi t date s = some t := by
  unfold assignRun
  exact foldl_write_some date ts t s j (hi + 1 - lo) lo sched h1 (by omega) hk

theorem assignRun_other (sched : Sched) (date : Nat) (ts : List String) (lo hi : Nat) (t : Task)
    (d : Nat) (s : String)
    (h : d ≠ date ∨ ∀ j, lo ≤ j → j ≤ hi → ts.getD j "" ≠ s) :
    assignRun sched date ts lo hi t d s = sched d s := by
  unfold assignRun
  apply foldl_write_other
  rcases h with h | h
  · exact Or.inl h
  · exact Or.inr fun j hj1 hj2 => h j hj1 (by omega)

/-! ### Characterisation of the free-run scan -/

theorem findRunAux_zero (occ : String → Option Task) (ts : List String) :
    ∀ rem i avail, findRunAux occ ts 0 rem i avail = none := by
  intro rem
  induction rem with
  | zero => intro i avail; rfl
  | succ rem ih =>
    intro i avail
    unfold findRunAux
    by_cases hc : occ (ts.getD i "") = none
    · rw [if_pos hc, if_neg (by omega)]
      exact ih (i + 1) (avail + 1)
    · rw [if_neg hc]
      exact ih (i + 1) 0

theorem findRunAux_free (occ : String → Option Task) (ts : List String) (n : Nat) :
    ∀ rem i avail, rem = ts.length - i →
      (∀ p, i ≤ p → p < ts.length → occ (ts.getD p "") = none) →
      avail < n →
      findRunAux occ ts n rem i avail =
        if i + (n - avail) ≤ ts.length then some (i + (n - avail) - 1) else none := by
  intro rem
  induction rem with
  | zero =>
    intro i avail hrem _ hav
    rw [if_neg (by omega)]
    rfl
  | succ rem ih =>
    intro i avail hrem hfree hav
    have hi : i < ts.length := by omega
    have hocc : occ (ts.getD i "") = none := hfree i (le_refl i) hi
    unfold findRunAux
    rw [if_pos hocc]
    by_cases he : avail + 1 = n
    · rw [if_pos he, if_pos (by omega)]
      congr 1
      omega
    · rw [if_neg he,
        ih (i + 1) (avail + 1) (by omega) (fun p hp hp2 => hfree p (by omega) hp2) (by omega)]
      have harith : i + 1 + (n - (avail + 1)) = i + (n - avail) := by omega
      rw [harith]

theorem findRun_free (occ : String → Option Task) (ts : List String) (n start : Nat)
    (hn : 1 ≤ n)
    (hfree : ∀ p, start ≤ p → p < ts.length → occ (ts.getD p "") = none) :
    findRun occ ts n start = if start + n ≤ ts.length then some (start + n - 1) else none := by
  unfold findRun
  rw [findRunAux_free occ ts n (ts.length - start) start 0 rfl hfree (by omega)]
  simp only [Nat.sub_zero]

theorem findRun_zero (occ : String → Option Task) (ts : List String) (start : Nat) :
    findRun occ ts 0 start = none :=
  findRunAux_zero occ ts _ start 0

/-! ### The cursor-level placement specification -/

/-- One placement decision: `task` occupies the `slotsNeeded task` grid
positions `lo, lo+1, …` of day `date`. -/
structure Placement where
  task : Task
  date : Nat
  lo : Nat
deriving DecidableEq

/-- The pure cursor recurrence extracted from the placement loop: a task whose
run fits in the rest of the current day is placed at the cursor, otherwise at
position 0 of the next day. -/
def placeAll : List Task → Nat → Nat → List Placement
  | [], _, _ => []
  | t :: rest, date, idx =>
    if idx + slotsNeeded t ≤ 16 then
      ⟨t, date, idx⟩ :: placeAll rest date (idx + slotsNeeded t)
    else
      ⟨t, date + 1, 0⟩ :: placeAll rest (date + 1) (slotsNeeded t)

/-- Predicate: `(d, s)` is one of the date-and-slot keys written by placement `pl`. -/
def covers (pl : Placement) (d : Nat) (s : String) : Prop :=
  pl.date = d ∧
    ∃ j, pl.lo ≤ j ∧ j < pl.lo + slotsNeeded pl.task ∧ defaultSlots.getD j "" = s

def applyPl (sched : Sched) (pl : Placement) : Sched :=
  assignRun sched pl.date defaultSlots pl.lo (pl.lo + slotsNeeded pl.task - 1) pl.task

def applyAll (sched : Sched) (P : List Placement) : Sched := P.foldl applyPl sched

/-- Placement `pl` is fully before `pl'`: on an earlier date, or on the same date with
its whole run strictly before `pl'`'s first slot. -/
def placedBefore (pl pl' : Placement) : Prop :=
  pl.date < pl'.date ∨ (pl.date = pl'.date ∧ pl.lo + slotsNeeded pl.task ≤ pl'.lo)

/-- Running-state invariant of the placement loop: nothing is scheduled after
the current date, and nothing is scheduled at or after the cursor on the
current date. -/
def Inv (sched : Sched) (date idx : Nat) : Prop :=
  (∀ d s, date < d → sched d s = none) ∧
  (∀ p, idx ≤ p → p < 16 → sched date (defaultSlots.getD p "") = none)

theorem applyPl_covers (sched : Sched) (pl : Placement) (d : Nat) (s : String)
    (h1 : 1 ≤ slotsNeeded pl.task) (hc : covers pl d s) :
    applyPl sched pl d s = some pl.task := by
  obtain ⟨hd, j, hj1, hj2, hk⟩ := hc
  subst hd
  exact assignRun_some sched pl.date defaultSlots pl.lo (pl.lo + slotsNeeded pl.task - 1)
    pl.task s j hj1 (by omega) hk

theorem applyPl_not_covers (sched : Sched) (pl : Placement) (d : Nat) (s : String)
    (h1 : 1 ≤ slotsNeeded pl.task) (hc : ¬ covers pl d s) :
    applyPl sched pl d s = sched d s := by
  apply assignRun_other
  by_cases hd : d = pl.date
  · subst hd
    exact Or.inr fun j hj1 hj2 hk => hc ⟨rfl, j, hj1, by omega, hk⟩
  · exact Or.inl hd

theorem applyAll_not_covers (d : Nat) (s : String) :
    ∀ (P : List Placement) (sched : Sched),
      (∀ pl ∈ P, 1 ≤ slotsNeeded pl.task) → (∀ pl ∈ P, ¬ covers pl d s) →
      applyAll sched P d s = sched d s := by
  intro P
  induction P with
  | nil => intro sched _ _; rfl
  | cons pl P ih =>
    intro sched h1 h2
    show applyAll (applyPl sched pl) P d s = sched d s
    rw [ih (applyPl sched pl) (fun q hq => h1 q (List.mem_cons_of_mem pl hq))
      (fun q hq => h2 q (List.mem_cons_of_mem pl hq))]
    exact applyPl_not_covers sched pl d s (h1 pl (List.mem_cons_self pl P))
      (h2 pl (List.mem_cons_self pl P))

theorem applyAll_covers (d : Nat) (s : String) (pl : Placement)
    (h1 : 1 ≤ slotsNeeded pl.task) (hc : covers pl d s) :
    ∀ (P₁ P₂ : List Placement) (sched : Sched),
      (∀ q ∈ P₂, 1 ≤ slotsNeeded q.task) →
      (∀ q ∈ P₂, ¬ covers q d s) →
      applyAll sched (P₁ ++ pl :: P₂) d s = some pl.task := by
  intro P₁
  induction P₁ with
  | nil =>
    intro P₂ sched hn hnc
    show applyAll (applyPl sched pl) P₂ d s = some pl.task
    rw [applyAll_not_covers d s P₂ (applyPl sched pl) hn hnc]
    exact applyPl_covers sched pl d s h1 hc
  | cons q P₁ ih =>
    intro P₂ sched hn hnc
    show applyAll (applyPl sched q) (P₁ ++ pl :: P₂) d s = some pl.task
    exact ih P₂ (applyPl sched q) hn hnc

theorem applyAll_some_src (d : Nat) (s : String) (tt : Task) :
    ∀ (P : List Placement) (sched : Sched),
      (∀ pl ∈ P, 1 ≤ slotsNeeded pl.task) →
      applyAll sched P d s = some tt →
      (∃ pl ∈ P, covers pl d s ∧ pl.task = tt) ∨ sched d s = some tt := by
  intro P
  induction P with
  | nil => intro sched _ h; exact Or.inr h
  | cons pl P ih =>
    intro sched h1 h
    have h' : applyAll (applyPl sched pl) P d s = some tt := h
    rcases ih (applyPl sched pl) (fun q hq => h1 q (List.mem_cons_of_mem pl hq)) h'
      with hq | hbase
    · obtain ⟨q, hq, hcov, htask⟩ := hq
      exact Or.inl ⟨q, List.mem_cons_of_mem pl hq, hcov, htask⟩
    · by_cases hcov : covers pl d s
      · rw [applyPl_covers sched pl d s (h1 pl (List.mem_cons_self pl P)) hcov] at hbase
        exact Or.inl ⟨pl, List.mem_cons_self pl P, hcov, Option.some.inj hbase⟩
      · rw [applyPl_not_covers sched pl d s (h1 pl (List.mem_cons_self pl P)) hcov] at hbase
        exact Or.inr hbase

/-! ### Characterisation of one placement step under the invariant -/

theorem placeTask_char (t : Task) :
    ∀ (fuel : Nat) (sched : Sched) (date idx : Nat) (res : Sched × Nat × Nat),
      Inv sched date idx →
      placeTask defaultSlots t fuel sched date idx = some res →
      1 ≤ slotsNeeded t ∧ slotsNeeded t ≤ 16 ∧
      res = (if idx + slotsNeeded t ≤ 16
             then (applyPl sched ⟨t, date, idx⟩, date, idx + slotsNeeded t)
             else (applyPl sched ⟨t, date + 1, 0⟩, date + 1, slotsNeeded t)) ∧
      Inv res.1 res.2.1 res.2.2 := by
  intro fuel
  induction fuel with
  | zero =>
    intro sched date idx res _ h
    exact absurd h (by simp [placeTask])
  | succ fuel ih =>
    intro sched date idx res hInv h
    have hInv' : Inv sched (date + 1) 0 :=
      ⟨fun d s hd => hInv.1 d s (by omega), fun p _ hp => hInv.1 (date + 1) _ (by omega)⟩
    have hfree : ∀ p, idx ≤ p → p < defaultSlots.length →
        (sched date) (defaultSlots.getD p "") = none :=
      fun p hp hp2 => hInv.2 p hp (by rw [defaultSlots_length] at hp2; exact hp2)
    simp only [placeTask] at h
    split at h
    · -- the scan found a run ending at position i
      rename_i i heq
      by_cases hn0 : slotsNeeded t = 0
      · rw [hn0, findRun_zero] at heq
        exact absurd heq (by simp)
      have hn : 1 ≤ slotsNeeded t := by omega
      rw [findRun_free (sched date) defaultSlots (slotsNeeded t) idx hn hfree,
        defaultSlots_length] at heq
      by_cases hfit : idx + slotsNeeded t ≤ 16
      · rw [if_pos hfit] at heq
        have hi : i = idx + slotsNeeded t - 1 := (Option.some.inj heq).symm
        subst hi
        have e1 : idx + slotsNeeded t - 1 + 1 - slotsNeeded t = idx := by omega
        have e2 : idx + slotsNeeded t - 1 + 1 = idx + slotsNeeded t := by omega
        rw [e1, e2] at h
        have hres : res =
            (assignRun sched date defaultSlots idx (idx + slotsNeeded t - 1) t, date,
              idx + slotsNeeded t) := (Option.some.inj h).symm
        have happl : applyPl sched ⟨t, date, idx⟩ =
            assignRun sched date defaultSlots idx (idx + slotsNeeded t - 1) t := rfl
        have hInvNew : Inv (assignRun sched date defaultSlots idx (idx + slotsNeeded t - 1) t)
            date (idx + slotsNeeded t) := by
          constructor
          · intro d s hd
            have hnc : ¬ covers ⟨t, date, idx⟩ d s := by
              intro hcov
              have hdd : date = d := hcov.1
              omega
            have hrw := applyPl_not_covers sched ⟨t, date, idx⟩ d s hn hnc
            rw [happl] at hrw
            rw [hrw]
            exact hInv.1 d s hd
          · intro p hp hp2
            have hnc : ¬ covers ⟨t, date, idx⟩ date (defaultSlots.getD p "") := by
              intro hcov
              obtain ⟨_, j, hj1, hj2, hk⟩ := hcov
              dsimp only at hj1 hj2
              have hj16 : j < 16 := by omega
              have := defaultSlots_getD_inj j hj16 p hp2 hk
              omega
            have hrw := applyPl_not_covers sched ⟨t, date, idx⟩ date (defaultSlots.getD p "") hn hnc
            rw [happl] at hrw
            rw [hrw]
            exact hInv.2 p (by omega) hp2
        refine ⟨hn, by omega, ?_, ?_⟩
        · rw [if_pos hfit, hres, happl]
        · rw [hres]
          exact hInvNew
      · rw [if_neg hfit] at heq
        exact absurd heq (by simp)
    · -- the scan failed on this day; the source moves to the next day
      rename_i heq
      obtain ⟨h1, h16, hres, hinv⟩ := ih sched (date + 1) 0 res hInv' h
      rw [if_pos (by omega : 0 + slotsNeeded t ≤ 16)] at hres
      by_cases hfit : idx + slotsNeeded t ≤ 16
      · exfalso
        rw [findRun_free (sched date) defaultSlots (slotsNeeded t) idx h1 hfree,
          defaultSlots_length, if_pos hfit] at heq
        exact absurd heq (by simp)
      · rw [Nat.zero_add] at hres
        exact ⟨h1, h16, by rw [if_neg hfit]; exact hres, hinv⟩

/-! ### Characterisation of the whole run -/

theorem scheduleTasks_char (fuel : Nat) :
    ∀ (l : List Task) (sched : Sched) (date idx : Nat) (final : Sched),
      Inv sched date idx →
      scheduleTasks defaultSlots fuel l sched date idx = some final →
      final = applyAll sched (placeAll l date idx) ∧
      ∀ pl ∈ placeAll l date idx,
        1 ≤ slotsNeeded pl.task ∧ slotsNeeded pl.task ≤ 16 ∧
          pl.lo + slotsNeeded pl.task ≤ 16 := by
  intro l
  induction l with
  | nil =>
    intro sched date idx final _ h
    have h' : some sched = some final := h
    exact ⟨(Option.some.inj h').symm, by simp [placeAll]⟩
  | cons t rest ih =>
    intro sched date idx final hInv h
    simp only [scheduleTasks] at h
    split at h
    · exact absurd h (by simp)
    · rename_i sched' date' idx' heq
      obtain ⟨h1, h16, hres, hinv⟩ := placeTask_char t fuel sched date idx
        (sched', date', idx') hInv heq
      by_cases hfit : idx + slotsNeeded t ≤ 16
      · rw [if_pos hfit] at hres
        simp only [Prod.mk.injEq] at hres
        obtain ⟨hs', hd', hi'⟩ := hres
        subst hs'; subst hd'; subst hi'
        obtain ⟨ihfin, ihbounds⟩ := ih _ _ _ final hinv h
        constructor
        · simp only [placeAll, if_pos hfit]
          exact ihfin
        · intro pl hpl
          simp only [placeAll, if_pos hfit] at hpl
          rcases List.mem_cons.mp hpl with rfl | hpl
          · exact ⟨h1, h16, hfit⟩
          · exact ihbounds pl hpl
      · rw [if_neg hfit] at hres
        simp only [Prod.mk.injEq] at hres
        obtain ⟨hs', hd', hi'⟩ := hres
        subst hs'; subst hd'; subst hi'
        obtain ⟨ihfin, ihbounds⟩ := ih _ _ _ final hinv h
        constructor
        · simp only [placeAll, if_neg hfit]
          exact ihfin
        · intro pl hpl
          simp only [placeAll, if_neg hfit] at hpl
          rcases List.mem_cons.mp hpl with rfl | hpl
          · refine ⟨h1, h16, ?_⟩
            dsimp only
            omega
          · exact ihbounds pl hpl

theorem generateSchedule_char (fuel : Nat) (tasks : List Task) (sched : Sched)
    (hs : generateSchedule fuel tasks = some sched) :
    sched = applyAll emptySched (placeAll (sortedTasks tasks) 0 0) ∧
    ∀ pl ∈ placeAll (sortedTasks tasks) 0 0,
      1 ≤ slotsNeeded pl.task ∧ slotsNeeded pl.task ≤ 16 ∧
        pl.lo + slotsNeeded pl.task ≤ 16 :=
  scheduleTasks_char fuel (sortedTasks tasks) emptySched 0 0 sched
    ⟨fun _ _ _ => rfl, fun _ _ _ => rfl⟩ hs

/-! ### Structure of the placement list -/

theorem placeAll_map_task : ∀ (l : List Task) (date idx : Nat),
    (placeAll l date idx).map Placement.task = l := by
  intro l
  induction l with
  | nil => intro date idx; rfl
  | cons t rest ih =>
    intro date idx
    by_cases hfit : idx + slotsNeeded t ≤ 16
    · simp only [placeAll, if_pos hfit, List.map_cons, ih]
    · simp only [placeAll, if_neg hfit, List.map_cons, ih]

theorem placeAll_lower : ∀ (l : List Task) (date idx : Nat) (pl : Placement),
    pl ∈ placeAll l date idx → date < pl.date ∨ (date = pl.date ∧ idx ≤ pl.lo) := by
  intro l
  induction l with
  | nil => intro date idx pl h; exact absurd h (List.not_mem_nil pl)
  | cons t rest ih =>
    intro date idx pl h
    by_cases hfit : idx + slotsNeeded t ≤ 16
    · simp only [placeAll, if_pos hfit] at h
      rcases List.mem_cons.mp h with rfl | h
      · exact Or.inr ⟨rfl, le_refl idx⟩
      · rcases ih date (idx + slotsNeeded t) pl h with h' | ⟨h1, h2⟩
        · exact Or.inl h'
        · exact Or.inr ⟨h1, by omega⟩
    · simp only [placeAll, if_neg hfit] at h
      rcases List.mem_cons.mp h with rfl | h
      · exact Or.inl (Nat.lt_succ_self date)
      · rcases ih (date + 1) (slotsNeeded t) pl h with h' | ⟨h1, h2⟩
        · exact Or.inl (by omega)
        · exact Or.inl (by omega)

theorem placeAll_pairwise : ∀ (l : List Task) (date idx : Nat),
    (placeAll l date idx).Pairwise placedBefore := by
  intro l
  induction l with
  | nil => intro date idx; exact List.Pairwise.nil
  | cons t rest ih =>
    intro date idx
    by_cases hfit : idx + slotsNeeded t ≤ 16
    · simp only [placeAll, if_pos hfit]
      refine List.Pairwise.cons ?_ (ih date (idx + slotsNeeded t))
      intro pl hpl
      rcases placeAll_lower rest date (idx + slotsNeeded t) pl hpl with h' | ⟨h1, h2⟩
      · exact Or.inl h'
      · exact Or.inr ⟨h1, h2⟩
    · simp only [placeAll, if_neg hfit]
      refine List.Pairwise.cons ?_ (ih (date + 1) (slotsNeeded t))
      intro pl hpl
      rcases placeAll_lower rest (date + 1) (slotsNeeded t) pl hpl with h' | ⟨h1, h2⟩
      · exact Or.inl h'
      · refine Or.inr ⟨h1, ?_⟩
        dsimp only
        omega

theorem placedBefore_disjoint (pl pl' : Placement)
    (hb : placedBefore pl pl')
    (h16 : pl.lo + slotsNeeded pl.task ≤ 16) (h16' : pl'.lo + slotsNeeded pl'.task ≤ 16)
    (d : Nat) (s : String) (hc : covers pl d s) (hc' : covers pl' d s) : False := by
  obtain ⟨hd, j, hj1, hj2, hk⟩ := hc
  obtain ⟨hd', j', hj1', hj2', hk'⟩ := hc'
  have hjj : j = j' :=
    defaultSlots_getD_inj j (by omega) j' (by omega) (hk.trans hk'.symm)
  rcases hb with h | ⟨h1, h2⟩
  · omega
  · omega

/-- Core characterisation shared by the slot-occupancy claims: in a successful
run over a duplicate-free task list, the keys of the output schedule that map
to a given input task are exactly `slotsNeeded` consecutive grid labels of one
date, a run that fits inside the 16-slot day. -/
theorem placed_run_char (fuel : Nat) (tasks : List Task) (sched : Sched)
    (hnd : tasks.Nodup) (hs : generateSchedule fuel tasks = some sched) :
    ∀ t ∈ tasks, ∃ d lo, lo + slotsNeeded t ≤ 16 ∧ 1 ≤ slotsNeeded t ∧
      ∀ d' s, (sched d' s = some t ↔
        (d' = d ∧ ∃ j, lo ≤ j ∧ j < lo + slotsNeeded t ∧ defaultSlots.getD j "" = s)) := by
  obtain ⟨hsched, hbounds⟩ := generateSchedule_char fuel tasks sched hs
  intro t ht
  have htm : t ∈ sortedTasks tasks := by
    unfold sortedTasks
    exact (List.mem_insertionSort taskLe).mpr ht
  have htm2 : t ∈ (placeAll (sortedTasks tasks) 0 0).map Placement.task := by
    rw [placeAll_map_task]
    exact htm
  obtain ⟨pl, hpl, hpltask⟩ := List.mem_map.mp htm2
  obtain ⟨hb1, hb2, hb3⟩ := hbounds pl hpl
  have hndmap : ((placeAll (sortedTasks tasks) 0 0).map Placement.task).Nodup := by
    rw [placeAll_map_task]
    exact ((List.perm_insertionSort taskLe tasks).nodup_iff).mpr hnd
  obtain ⟨P₁, P₂, hdecomp⟩ := List.append_of_mem hpl
  have hpw := placeAll_pairwise (sortedTasks tasks) 0 0
  rw [hdecomp] at hpw
  have hpwA := List.pairwise_append.mp hpw
  have hP₂before : ∀ q ∈ P₂, placedBefore pl q := (List.pairwise_cons.mp hpwA.2.1).1
  refine ⟨pl.date, pl.lo, by rw [← hpltask]; exact hb3, by rw [← hpltask]; exact hb1, ?_⟩
  intro d' s
  constructor
  · intro hsome
    rw [hsched] at hsome
    rcases applyAll_some_src d' s t (placeAll (sortedTasks tasks) 0 0) emptySched
        (fun q hq => (hbounds q hq).1) hsome with ⟨q, hq, hcov, hqtask⟩ | hbase
    · have hqpl : q = pl :=
        List.inj_on_of_nodup_map hndmap hq hpl (by rw [hqtask, hpltask])
      subst hqpl
      obtain ⟨hdq, j, hj1, hj2, hk⟩ := hcov
      exact ⟨hdq.symm, j, hj1, by rw [← hpltask]; exact hj2, hk⟩
    · exact absurd hbase (by simp [emptySched])
  · intro hrhs
    obtain ⟨hd', j, hj1, hj2, hk⟩ := hrhs
    have hcov : covers pl d' s := ⟨hd'.symm, j, hj1, by rw [hpltask]; exact hj2, hk⟩
    rw [hsched, hdecomp]
    have hval := applyAll_covers d' s pl hb1 hcov P₁ P₂ emptySched
      (fun q hq => (hbounds q (hdecomp ▸ List.mem_append_right P₁
        (List.mem_cons_of_mem pl hq))).1)
      (fun q hq hcovq => placedBefore_disjoint pl q (hP₂before q hq) hb3
        (hbounds q (hdecomp ▸ List.mem_append_right P₁ (List.mem_cons_of_mem pl hq))).2.2
        d' s hcov hcovq)
    rw [hval, hpltask]

/-! ### Concrete tasks used in witnesses and counterexamples -/

def taskA : Task := ⟨1, "A", 30, .ASAP, .ASAP, 0⟩

def taskB : Task := ⟨2, "B", 60, .High, .HardDeadline, 0⟩

def tieA : Task := ⟨1, "A", 30, .Average, .SoftDeadline, 0⟩

def tieB : Task := ⟨2, "B", 30, .Average, .SoftDeadline, 0⟩

def oversizedTask : Task := ⟨1, "big", 600, .Average, .SoftDeadline, 0⟩

def smallTask (k : Nat) : Task := ⟨k, toString k, 30, .Average, .SoftDeadline, 0⟩

def seventeenTasks : List Task := (List.range 17).map fun k => smallTask (k + 1)

/-! ### The slot-occupancy claims -/

/-- Claim C2: every task placed by the scheduler occupies exactly
`ceil(duration/30)` slot keys; those keys are consecutive positions of the
day grid, all on a single date, and each of them maps to that task record
(the keys of the output mapping to `t` are exactly the labels of grid
positions `lo, …, lo + slotsNeeded t - 1` of one date `d`).  The input list
is duplicate-free, as guaranteed by the unique-`id` invariant of §3. -/
theorem task_occupies_consecutive_run (fuel : Nat) (tasks : List Task) (sched : Sched)
    (hnd : tasks.Nodup) (hs : generateSchedule fuel tasks = some sched) :
    ∀ t ∈ tasks, ∃ d lo, lo + slotsNeeded t ≤ 16 ∧ 1 ≤ slotsNeeded t ∧
      ∀ d' s, (sched d' s = some t ↔
        (d' = d ∧ ∃ j, lo ≤ j ∧ j < lo + slotsNeeded t ∧ defaultSlots.getD j "" = s)) :=
  placed_run_char fuel tasks sched hnd hs

theorem task_occupies_consecutive_run_witness :
    ([taskA, taskB] : List Task).Nodup ∧
    ∀ t ∈ ([taskA, taskB] : List Task), ∃ d lo,
      lo + slotsNeeded t ≤ 16 ∧ 1 ≤ slotsNeeded t ∧
      ∀ d' s, ((generateSchedule 2 [taskA, taskB]).getD emptySched d' s = some t ↔
        (d' = d ∧ ∃ j, lo ≤ j ∧ j < lo + slotsNeeded t ∧ defaultSlots.getD j "" = s)) :=
  ⟨by decide, task_occupies_consecutive_run 2 [taskA, taskB] _ (by decide) rfl⟩

/-- A task `t` is assigned the full slot run starting at grid position `lo`
on date `d`: the run fits in the day and all of its keys map to `t`. -/
def runAssigned (sched : Sched) (d lo : Nat) (t : Task) : Prop :=
  lo + slotsNeeded t ≤ 16 ∧
  ∀ j, lo ≤ j → j < lo + slotsNeeded t → sched d (defaultSlots.getD j "") = some t

/-- Claim C3: when every task of the (duplicate-free) input needs at most the
16 slots of a day and the run returns a schedule, every input task appears in
exactly one `(date, contiguous-slot-run)` location of the output, and the
empty task list yields the empty schedule. -/
theorem every_task_scheduled_exactly_once (fuel : Nat) (tasks : List Task) (sched : Sched)
    (hnd : tasks.Nodup) (h16 : ∀ t ∈ tasks, slotsNeeded t ≤ 16)
    (hs : generateSchedule fuel tasks = some sched) :
    (∀ t ∈ tasks, ∃! p : Nat × Nat, runAssigned sched p.1 p.2 t) ∧
    generateSchedule fuel ([] : List Task) = some emptySched := by
  refine ⟨?_, rfl⟩
  intro t ht
  obtain ⟨d, lo, hb, hn, hiff⟩ := placed_run_char fuel tasks sched hnd hs t ht
  refine ⟨(d, lo), ⟨hb, fun j hj1 hj2 => ?_⟩, ?_⟩
  · exact (hiff d (defaultSlots.getD j "")).mpr ⟨rfl, j, hj1, hj2, rfl⟩
  · rintro ⟨d₂, lo₂⟩ ⟨hb₂, hall₂⟩
    have h1 := (hiff d₂ (defaultSlots.getD lo₂ "")).mp (hall₂ lo₂ (le_refl lo₂) (by omega))
    obtain ⟨hd₂, j₁, hj₁a, hj₁b, hj₁k⟩ := h1
    have hlo₂j : lo₂ = j₁ := defaultSlots_getD_inj lo₂ (by omega) j₁ (by omega) hj₁k.symm
    have h2 := (hiff d₂ (defaultSlots.getD (lo₂ + slotsNeeded t - 1) "")).mp
      (hall₂ (lo₂ + slotsNeeded t - 1) (by omega) (by omega))
    obtain ⟨_, j₂, hj₂a, hj₂b, hj₂k⟩ := h2
    have hhi : lo₂ + slotsNeeded t - 1 = j₂ :=
      defaultSlots_getD_inj _ (by omega) j₂ (by omega) hj₂k.symm
    have hlo : lo₂ = lo := by omega
    simp only [Prod.mk.injEq]
    exact ⟨hd₂, hlo⟩

theorem every_task_scheduled_exactly_once_witness :
    ([taskA, taskB] : List Task).Nodup ∧
    (∀ t ∈ ([taskA, taskB] : List Task), slotsNeeded t ≤ 16) ∧
    ((∀ t ∈ ([taskA, taskB] : List Task), ∃! p : Nat × Nat,
        runAssigned ((generateSchedule 2 [taskA, taskB]).getD emptySched) p.1 p.2 t) ∧
      generateSchedule 2 ([] : List Task) = some emptySched) :=
  ⟨by decide, by decide,
    every_task_scheduled_exactly_once 2 [taskA, taskB] _ (by decide) (by decide) rfl⟩

/-- Claim C4: within one run slots are assigned at most once — the runs of
distinct placements are pairwise disjoint, and at the moment a placement is
applied every key it writes is still unoccupied in the schedule built so far;
the output (being a map) records at most one task per date-and-slot key. -/
theorem slots_never_reassigned (fuel : Nat) (tasks : List Task) (sched : Sched)
    (hs : generateSchedule fuel tasks = some sched) :
    sched = applyAll emptySched (placeAll (sortedTasks tasks) 0 0) ∧
    (placeAll (sortedTasks tasks) 0 0).Pairwise
      (fun pl pl' => ∀ d s, covers pl d s → covers pl' d s → False) ∧
    ∀ P₁ pl P₂, placeAll (sortedTasks tasks) 0 0 = P₁ ++ pl :: P₂ →
      ∀ d s, covers pl d s → applyAll emptySched P₁ d s = none := by
  obtain ⟨hsched, hbounds⟩ := generateSchedule_char fuel tasks sched hs
  refine ⟨hsched, ?_, ?_⟩
  · refine (placeAll_pairwise (sortedTasks tasks) 0 0).imp_of_mem ?_
    intro pl pl' hpl hpl' hb d s hc hc'
    exact placedBefore_disjoint pl pl' hb (hbounds pl hpl).2.2 (hbounds pl' hpl').2.2 d s hc hc'
  · intro P₁ pl P₂ hdecomp d s hcov
    have hpw := placeAll_pairwise (sortedTasks tasks) 0 0
    rw [hdecomp] at hpw
    have hpwA := List.pairwise_append.mp hpw
    have hplmem : pl ∈ placeAll (sortedTasks tasks) 0 0 := by
      rw [hdecomp]
      exact List.mem_append_right P₁ (List.mem_cons_self pl P₂)
    have hstep := applyAll_not_covers d s P₁ emptySched
      (fun q hq => (hbounds q (by rw [hdecomp]; exact List.mem_append_left _ hq)).1)
      (fun q hq hcovq => placedBefore_disjoint q pl
        (hpwA.2.2 q hq pl (List.mem_cons_self pl P₂))
        (hbounds q (by rw [hdecomp]; exact List.mem_append_left _ hq)).2.2
        (hbounds pl hplmem).2.2 d s hcovq hcov)
    rw [hstep]
    rfl

theorem slots_never_reassigned_witness :
    ((generateSchedule 2 [taskA, taskB]).getD emptySched =
        applyAll emptySched (placeAll (sortedTasks [taskA, taskB]) 0 0)) ∧
    (placeAll (sortedTasks [taskA, taskB]) 0 0).Pairwise
      (fun pl pl' => ∀ d s, covers pl d s → covers pl' d s → False) ∧
    (∀ P₁ pl P₂, placeAll (sortedTasks [taskA, taskB]) 0 0 = P₁ ++ pl :: P₂ →
      ∀ d s, covers pl d s → applyAll emptySched P₁ d s = none) :=
  slots_never_reassigned 2 [taskA, taskB] _ rfl

/-- Claim C5: placements taken in ranking order advance monotonically — a
later task on the same date starts at or after the slot one past the earlier
task's last slot, and once the cursor has moved past a position of a date that
position is never assigned again (every later placement lies on a strictly
later date or starts at or after the end of the earlier run). -/
theorem cursor_monotone_per_date (fuel : Nat) (tasks : List Task) (sched : Sched)
    (hs : generateSchedule fuel tasks = some sched) :
    sched = applyAll emptySched (placeAll (sortedTasks tasks) 0 0) ∧
    (placeAll (sortedTasks tasks) 0 0).Pairwise placedBefore :=
  ⟨(generateSchedule_char fuel tasks sched hs).1, placeAll_pairwise (sortedTasks tasks) 0 0⟩

theorem cursor_monotone_per_date_witness :
    ((generateSchedule 2 [taskA, taskB]).getD emptySched =
        applyAll emptySched (placeAll (sortedTasks [taskA, taskB]) 0 0)) ∧
    (placeAll (sortedTasks [taskA, taskB]) 0 0).Pairwise placedBefore :=
  cursor_monotone_per_date 2 [taskA, taskB] _ rfl

/-! ### The oversized-task claim -/

theorem oversized_placeTask_none :
    ∀ (fuel date : Nat), placeTask defaultSlots oversizedTask fuel emptySched date 0 = none := by
  intro fuel
  induction fuel with
  | zero => intro date; rfl
  | succ fuel ih =>
    intro date
    have hfree : ∀ p, 0 ≤ p → p < defaultSlots.length →
        (emptySched date) (defaultSlots.getD p "") = none := fun _ _ _ => rfl
    simp only [placeTask]
    rw [findRun_free (emptySched date) defaultSlots (slotsNeeded oversizedTask) 0
      (by decide) hfree]
    rw [if_neg (by decide)]
    exact ih (date + 1)

/-- Claim C6: a task whose `ceil(duration/30)` exceeds the 16 slots of a day
(duration 600 needs 20 slots) is never scheduled — the source's
`while (!scheduled)` day-advancement loop never exits, so the run produces no
schedule at any day bound; no `UnschedulableTaskError` (or any other failure
report) exists in the code. -/
theorem oversized_task_never_scheduled :
    ∀ fuel : Nat, generateSchedule fuel [oversizedTask] = none := by
  intro fuel
  show scheduleTasks defaultSlots fuel (sortedTasks [oversizedTask]) emptySched 0 0 = none
  have hsort : sortedTasks [oversizedTask] = [oversizedTask] := rfl
  rw [hsort]
  simp only [scheduleTasks]
  rw [oversized_placeTask_none fuel 0]

/-! ### The 17-task scenario -/

/-- Counterexample to claim C7 as stated: after scheduling 17 half-hour tasks
the day after the reference date has its first task under the unpadded label
`"9:00"`; the claimed key `"09:00"` is not present at all. -/
theorem seventeenth_task_not_at_padded_label :
    (generateSchedule 2 seventeenTasks).map (fun f => (f 1 "09:00", f 1 "9:00")) =
      some (none, some (smallTask 17)) := by decide

/-- Claim C7 as amended: with 17 tasks of duration 30 on the default 16-slot
grid, the 16 slots of the reference date hold the first 16 ranked tasks in
order and the 17th task is placed at slot label `"9:00"` (the source's
unpadded hour format) of the following day. -/
theorem seventeen_tasks_fill_day_then_spill :
    (generateSchedule 2 seventeenTasks).map (fun f =>
        (((List.range 16).map fun p => f 0 (defaultSlots.getD p "")), f 1 "9:00")) =
      some ((seventeenTasks.take 16).map some, some (smallTask 17)) := by decide

/-! ### Permutation determinism -/

/-- Counterexample to claim C8 as stated: two tasks that tie on all three
ranking keys but are distinct records swap their slots when the input order
is swapped, so permuting the input changes the output schedule. -/
theorem tie_permutation_changes_schedule :
    ([tieA, tieB] : List Task).Perm [tieB, tieA] ∧
    (generateSchedule 2 [tieA, tieB]).map (fun f => f 0 "9:00") ≠
      (generateSchedule 2 [tieB, tieA]).map (fun f => f 0 "9:00") :=
  ⟨by decide, by decide⟩

/-- Claim C8 as amended: if no two distinct input tasks agree on all three
ranking keys `(priorityRank, importanceRank, deadline)`, then any two
permutations of the same task list produce identical schedules. -/
theorem schedule_perm_invariant_of_distinct_keys (fuel : Nat) (l l' : List Task)
    (hp : l.Perm l') (hinj : ∀ a ∈ l, ∀ b ∈ l, keyOf a = keyOf b → a = b) :
    generateSchedule fuel l = generateSchedule fuel l' := by
  unfold generateSchedule
  rw [sortedTasks_eq_of_perm l l' hp hinj]

theorem schedule_perm_invariant_witness :
    ([taskA, taskB] : List Task).Perm [taskB, taskA] ∧
    (∀ a ∈ ([taskA, taskB] : List Task), ∀ b ∈ ([taskA, taskB] : List Task),
      keyOf a = keyOf b → a = b) ∧
    generateSchedule 2 [taskA, taskB] = generateSchedule 2 [taskB, taskA] :=
  ⟨by decide, by decide,
    schedule_perm_invariant_of_distinct_keys 2 [taskA, taskB] [taskB, taskA]
      (by decide) (by decide)⟩

end Motion
